import Mathlib

/-!
# pg_session_stats: process identity resolution and snapshot recording

A shallow embedding of `src/main.c`.

* C `char` arrays are lists of byte values (`List Nat`); a C string is the run of
  bytes before the first NUL byte of its array.
* `size_t` arithmetic is arithmetic modulo `2 ^ 64`.
* A function that can be left through `elog(ERROR, ...)` or through an access
  outside its array returns `Except Fault _`.
* `saveInfo` threads an explicit `World` (rows of the `log` table, open SQLite
  handles, live prepared statements); the outcomes of the operating system and
  SQLite calls are inputs (`Env`).
-/

namespace PgSessionStats

/-! ## Library functions used by the source -/

/-- Ways in which control leaves a function other than by `return`. -/
inductive Fault where
  /-- Control left through `elog(ERROR, msg)`. -/
  | elogError (msg : String)
  /-- An array was indexed at `index`, outside its bounds. -/
  | outOfBounds (index : Nat)
  deriving DecidableEq, Repr

/-- PostgreSQL message level `LOG` (`utils/elog.h`). -/
def LOG : Nat := 15

/-- PostgreSQL message level `ERROR` (`utils/elog.h`: 21 since PostgreSQL 14, 20
before; only its order against the other levels matters). -/
def ERROR : Nat := 21

/-- PostgreSQL `elog(level, msg)`: `utils/elog.h` documents that a call with
`level >= ERROR` does not return to its caller (the current query is aborted by a
non-local exit); below `ERROR` the message is logged and the call returns. -/
def elog (level : Nat) (msg : String) : Except Fault Unit :=
  if ERROR ≤ level then throw (Fault.elogError msg) else pure ()

/-- C `isspace` in the "C" locale: space, `\t`, `\n`, `\v`, `\f`, `\r`. Bytes are
taken as values 0 to 255; none from 128 up is white space or a digit. -/
def isspace (c : Nat) : Bool := c == 32 || (9 ≤ c && c ≤ 13)

/-- C `isdigit`: the characters `0` to `9`. -/
def isdigit (c : Nat) : Bool := 48 ≤ c && c ≤ 57

/-- Number of values of a `size_t` (64-bit). -/
def SIZE_MOD : Nat := 2 ^ 64

/-- Subtraction on `size_t`: wraps modulo `2 ^ 64`. -/
def sizeSub (a b : Nat) : Nat := (a + (SIZE_MOD - b % SIZE_MOD)) % SIZE_MOD

/-- C `strlen(str)`: the index of the first NUL byte. When the array holds no NUL
byte the search leaves the array at index `str.length`. -/
def strlenFrom : List Nat → Nat → Except Fault Nat
  | [], i => throw (Fault.outOfBounds i)
  | c :: cs, i => if c = 0 then pure i else strlenFrom cs (i + 1)

/-- C `strlen` on an array. -/
def strlen (str : List Nat) : Except Fault Nat := strlenFrom str 0

/-- The C string held by an array: the bytes before the first NUL. -/
def cstr (str : List Nat) : List Nat := str.takeWhile (fun c => c != 0)

/-- Reading `str[i]`, with the bounds of the array checked. -/
def charAt (str : List Nat) (i : Nat) : Except Fault Nat :=
  match str.get? i with
  | some c => pure c
  | none => throw (Fault.outOfBounds i)

/-- Value of a run of decimal digits, most significant first. -/
def digitsValue (ds : List Nat) : Nat := ds.foldl (fun acc d => 10 * acc + (d - 48)) 0

/-- The part of `strtol(s, NULL, 10)` after the leading white space: one optional
sign, then the longest run of digits, the value clamped to the range of a 64-bit
`long`. -/
def strtolSigned : List Nat → Int
  | 45 :: r => max (-(digitsValue (r.takeWhile isdigit) : Int)) (-(2 ^ 63 : Int))
  | 43 :: r => min (digitsValue (r.takeWhile isdigit) : Int) (2 ^ 63 - 1 : Int)
  | s => min (digitsValue (s.takeWhile isdigit) : Int) (2 ^ 63 - 1 : Int)

/-- C `strtol(s, NULL, 10)` on an LP64 platform: leading white space is skipped, then
the number is read. -/
def strtol (s : List Nat) : Int := strtolSigned (s.dropWhile isspace)

/-- Conversion of a `long` to `int`: the low 32 bits, two's complement. -/
def toInt32 (x : Int) : Int := (x + 2 ^ 31) % 2 ^ 32 - 2 ^ 31

/-- C `atoi(s)`, which glibc defines as `(int) strtol(s, NULL, 10)`. -/
def atoi (s : List Nat) : Int := toInt32 (strtol s)

/-- C `memset(buf, 0, n)` on a fresh array of `n` bytes. -/
def zeroed (n : Nat) : List Nat := List.replicate n 0

/-- C `fread(buf, 1, nmemb, f)` at the start of a file holding `file`: the first
`nmemb` bytes of the file overwrite the start of `buf`; the count is returned. -/
def fread (buf : List Nat) (nmemb : Nat) (file : List Nat) : List Nat × Nat :=
  let got := file.take nmemb
  (got ++ buf.drop got.length, got.length)

/-! ## `trimwhitespace` (main.c, lines 58-69) -/

/-- The loop `while (length > 0 && isspace(str[length])) str[length--] = 0;`. -/
def trimLoop (str : List Nat) : Nat → List Nat
  | 0 => str
  | length + 1 =>
    if isspace (str.getD (length + 1) 0) then trimLoop (str.set (length + 1) 0) length
    else str

/-- `void trimwhitespace(char *str)`: returns the array as the call leaves it. -/
def trimwhitespace (str : List Nat) : Except Fault (List Nat) := do
  let length ← strlen str
  if length = 0 then return str
  let length := length - 1
  return trimLoop str length

/-! ## `read_pg_pid_desc` (main.c, lines 71-106) -/

/-- The loop `while (curr > 0 && isdigit(desc[curr])) curr--;`: the final value of
`curr`, and every value `curr` took (first to last). -/
def scanBack (desc : List Nat) : Nat → Nat × List Nat
  | 0 => (0, [0])
  | curr + 1 =>
    if isdigit (desc.getD (curr + 1) 0) then
      ((scanBack desc curr).1, (curr + 1) :: (scanBack desc curr).2)
    else (curr + 1, [curr + 1])

/-- `pid_t read_pg_pid_desc()`. `pid` is the value of `getpid()`; `cmdline` is the
content of `/proc/<pid>/cmdline`, or `none` when `fopen` fails. The `return 0;` of
lines 85 and 92 follows an `elog(ERROR, ...)`, which does not return. -/
def read_pg_pid_desc (pid : Int) (cmdline : Option (List Nat)) : Except Fault Int := do
  match cmdline with
  | none =>
    elog ERROR "could not read proc description for PID %d"
    return 0
  | some file =>
    let desc := zeroed 4096
    let (desc, n) := fread desc 4096 file
    if n = 0 then
      elog ERROR "could not fread from proc description for PID %d"
      return 0
    let desc ← trimwhitespace desc
    let length ← strlen desc
    let last ← charAt desc (sizeSub length 1)
    if !isdigit last then return pid
    let curr := sizeSub length 1
    let curr := (scanBack desc curr).1
    return atoi (desc.drop curr)

/-- The description string: the C string that `desc` holds after the `fread` of
line 90 (`none` when nothing was read or the array holds no NUL byte). -/
def description (file : List Nat) : Option (List Nat) :=
  let (desc, n) := fread (zeroed 4096) 4096 file
  if n = 0 then none
  else match strlen desc with
    | .ok _ => some (cstr desc)
    | .error _ => none

/-- Bytes of a string literal. -/
def bytes (s : String) : List Nat := s.toList.map Char.toNat

/-! ## `read_file` and `saveInfo` (main.c, lines 108-123 and 173-239) -/

/-- `void read_file(const char* fp, char* buf, size_t len)`: returns `buf` as the call
leaves it. `file` is the content of the file at `fp`, or `none` when `fopen` fails. -/
def read_file (file : Option (List Nat)) (len : Nat) : Except Fault (List Nat) := do
  let buf := zeroed len
  match file with
  | none =>
    elog ERROR "could not open file"
    return buf
  | some content =>
    let (buf, n) := fread buf len content
    if n = 0 then
      elog ERROR "could not fread from file status"
      return buf
    return buf

/-- SQLite result code `SQLITE_OK`. -/
def SQLITE_OK : Nat := 0

/-- SQLite result code `SQLITE_BUSY`. -/
def SQLITE_BUSY : Nat := 5

/-- SQLite result code `SQLITE_DONE`. -/
def SQLITE_DONE : Nat := 101

/-- POSIX value of `CLOCKS_PER_SEC` (`time.h`). -/
def CLOCKS_PER_SEC : Int := 1000000

/-- A C `double` obtained as `(double)usage / (double)CLOCKS_PER_SEC` (line 182), kept
as its two operands. -/
structure Seconds where
  usage : Int
  clocksPerSec : Int
  deriving DecidableEq, Repr

/-- Columns of the table `log` (lines 202-208), which are also the five parameters of
`pg_session_stats_insert_sql` (line 50); `none` is SQL `NULL`. -/
structure Row where
  master_pid : Option Int
  my_pid : Option Int
  usage : Option Seconds
  procstatus : Option (List Nat)
  procio : Option (List Nat)
  deriving DecidableEq, Repr

/-- What `saveInfo` acts on: the rows of table `log` in the store at
`pg_session_stats_path`, the number of open `sqlite3` handles of the process, and the
number of prepared statements not yet finalized. -/
structure World where
  rows : List Row
  handles : Nat
  stmts : Nat
  deriving DecidableEq, Repr

/-- What the operating system and SQLite answer during one call of `saveInfo`. -/
structure Env where
  /-- Value of `getpid()`. -/
  pid : Int
  /-- Value of `clock()`. -/
  clock : Int
  /-- Content of `/proc/<pid>/cmdline` (`none`: `fopen` fails). -/
  cmdline : Option (List Nat)
  /-- Content of `/proc/self/status` (`none`: `fopen` fails). -/
  status : Option (List Nat)
  /-- Content of `/proc/self/io` (`none`: `fopen` fails). -/
  procio : Option (List Nat)
  /-- Result code of `sqlite3_open`. -/
  openRc : Nat
  /-- Result code of `sqlite3_exec` on the `CREATE TABLE IF NOT EXISTS` statement. -/
  execRc : Nat
  /-- Result code of `sqlite3_prepare_v2`. -/
  prepareRc : Nat
  /-- Result code of `sqlite3_step`. -/
  stepRc : Nat

/-- Computations of `saveInfo`: the `World` is kept when control leaves through a
`Fault`. -/
abbrev Run := ExceptT Fault (StateM World)

/-- Running a computation that does not touch the `World`. -/
def liftE {α : Type} (x : Except Fault α) : Run α := ExceptT.mk (pure x)

/-- SQLite `sqlite3_open`: a handle is allocated whether or not the open succeeds, and
stays allocated until `sqlite3_close`. -/
def sqlite3_open (rc : Nat) : Run Nat := do
  modify fun w => { w with handles := w.handles + 1 }
  return rc

/-- SQLite `sqlite3_busy_timeout`: sets the wait bound of the handle. -/
def sqlite3_busy_timeout (_ms : Nat) : Run Unit := pure ()

/-- SQLite `sqlite3_exec` of `CREATE TABLE IF NOT EXISTS log (...)`: existing rows are
left as they are. -/
def sqlite3_exec (rc : Nat) : Run Nat := return rc

/-- SQLite `sqlite3_prepare_v2`: on `SQLITE_OK` a statement is created, all of its
parameters `NULL`. -/
def sqlite3_prepare_v2 (rc : Nat) : Run (Nat × Row) := do
  if rc = SQLITE_OK then
    modify fun w => { w with stmts := w.stmts + 1 }
  return (rc, ⟨none, none, none, none, none⟩)

/-- SQLite `sqlite3_bind_text(res, i, buf, -1, SQLITE_TRANSIENT)`: the text is the C
string at `buf`. -/
def textOf (buf : List Nat) : Except Fault (List Nat) := do
  let n ← strlen buf
  return buf.take n

/-- SQLite `sqlite3_step` on the prepared `INSERT`: on `SQLITE_DONE` one row holding
the bound values has been added to `log`; otherwise no row has been added. -/
def sqlite3_step (rc : Nat) (res : Row) : Run Nat := do
  if rc = SQLITE_DONE then
    modify fun w => { w with rows := w.rows ++ [res] }
  return rc

/-- SQLite `sqlite3_finalize`. -/
def sqlite3_finalize : Run Unit :=
  modify fun w => { w with stmts := w.stmts - 1 }

/-- SQLite `sqlite3_close`. -/
def sqlite3_close : Run Unit :=
  modify fun w => { w with handles := w.handles - 1 }

/-- `void saveInfo()`. -/
def saveInfo (env : Env) : Run Unit := do
  let usage := env.clock
  let asSeconds : Seconds := ⟨usage, CLOCKS_PER_SEC⟩
  let pid := env.pid
  let parent ← liftE (read_pg_pid_desc pid env.cmdline)
  let buf ← liftE (read_file env.status 8096)
  let buf2 ← liftE (read_file env.procio 8096)
  let rc ← sqlite3_open env.openRc
  sqlite3_busy_timeout 5000
  if rc ≠ SQLITE_OK then
    liftE (elog ERROR "Could not open SQLite database for logging: %s")
    return
  let rc ← sqlite3_exec env.execRc
  if rc ≠ SQLITE_OK then
    liftE (elog ERROR "Could not ensure schema was created: %s")
    return
  let (rc, res) ← sqlite3_prepare_v2 env.prepareRc
  if rc ≠ SQLITE_OK then
    liftE (elog ERROR "Could not prepare insert statement: %s")
    return
  let res := { res with master_pid := some parent }
  let res := { res with my_pid := some pid }
  let res := { res with usage := some asSeconds }
  let res := { res with procstatus := some (← liftE (textOf buf)) }
  let res := { res with procio := some (← liftE (textOf buf2)) }
  if (← sqlite3_step env.stepRc res) ≠ SQLITE_DONE then
    liftE (elog ERROR "Could not insert data: %s")
    return
  sqlite3_finalize
  sqlite3_close

/-- Running `saveInfo` from the world `w`: how control left, and the world then. -/
def runSaveInfo (env : Env) (w : World) : Except Fault Unit × World :=
  (saveInfo env).run.run w

/-- Successive calls of `saveInfo`, one for each element of `envs`, each starting from
the world the previous one left. -/
def runSaveInfoAll (envs : List Env) (w : World) : World :=
  envs.foldl (fun w env => (runSaveInfo env w).2) w

/-! ## String-level description of the array operations -/

/-- Trailing white space removed, the first character always kept. -/
def trimStr : List Nat → List Nat
  | [] => []
  | c :: r => c :: r.rdropWhile isspace

/-- The array holds the C string `s`: `s` without NUL byte, then a NUL byte. -/
def Holds (str s : List Nat) : Prop :=
  (∀ b ∈ s, b ≠ 0) ∧ ∃ tail, str = s ++ 0 :: tail

/-- String-level form of lines 94-105 of `read_pg_pid_desc`, for a description `s`. -/
def resolveStr (pid : Int) (s : List Nat) : Except Fault Int :=
  match (trimStr s).getLast? with
  | none => .error (Fault.outOfBounds (2 ^ 64 - 1))
  | some last =>
    if !isdigit last then .ok pid
    else .ok (atoi ((trimStr s).drop (scanBack (trimStr s) ((trimStr s).length - 1)).1))

/-! ## Concrete inputs -/

/-- A call of `saveInfo` in a parallel worker in which every step succeeds. -/
def envWorker : Env :=
  { pid := 14811
    clock := 1234
    cmdline := some (bytes "postgres: parallel worker for PID 14810")
    status := some (bytes "Name:\tpostgres\n")
    procio := some (bytes "rchar: 1\n")
    openRc := SQLITE_OK
    execRc := SQLITE_OK
    prepareRc := SQLITE_OK
    stepRc := SQLITE_DONE }

/-- A call of `saveInfo` in which `sqlite3_exec` times out on the lock of the store. -/
def envSchemaBusy : Env := { envWorker with execRc := SQLITE_BUSY }

/-- A call of `saveInfo` in which `sqlite3_step` times out on the lock of the store. -/
def envInsertBusy : Env := { envWorker with stepRc := SQLITE_BUSY }

/-- A call of `saveInfo` in which `/proc/<pid>/cmdline` cannot be opened. -/
def envNoCmdline : Env := { envWorker with cmdline := none }

/-- The world before any call: no row, no open handle, no live statement. -/
def emptyWorld : World := { rows := [], handles := 0, stmts := 0 }

/-- Whether a computation returned. -/
def isOk {α : Type} : Except Fault α → Bool
  | .ok _ => true
  | .error _ => false

/-- No step of `saveInfo` fails: the three files are read and hold C strings, and
SQLite answers `SQLITE_OK` to open, exec and prepare and `SQLITE_DONE` to step. -/
def failureFree (env : Env) : Bool :=
  isOk (read_pg_pid_desc env.pid env.cmdline)
    && isOk (read_file env.status 8096 >>= textOf)
    && isOk (read_file env.procio 8096 >>= textOf)
    && env.openRc == SQLITE_OK && env.execRc == SQLITE_OK
    && env.prepareRc == SQLITE_OK && env.stepRc == SQLITE_DONE

/-- The text that `sqlite3_bind_text` takes from a buffer of 8096 bytes filled by
`read_file` from a file: the bytes of the file before its first NUL byte, among its
first 8096 bytes. -/
def fileText (content : List Nat) : List Nat := cstr (content.take 8096)

/-- The row that a failure-free call binds (lines 225-229), in terms of the inputs:
the parent id, the own pid, the CPU seconds, and the texts of `/proc/self/status` and
`/proc/self/io`. -/
def rowOf (env : Env) : Row :=
  { master_pid := (read_pg_pid_desc env.pid env.cmdline).toOption
    my_pid := some env.pid
    usage := some ⟨env.clock, CLOCKS_PER_SEC⟩
    procstatus := env.status.map fileText
    procio := env.procio.map fileText }

/-! ## Lemmas -/

theorem strlenFrom_holds (s tail : List Nat) (hs : ∀ b ∈ s, b ≠ 0) (i : Nat) :
    strlenFrom (s ++ 0 :: tail) i = .ok (i + s.length) := by
  induction s generalizing i with
  | nil => simp [strlenFrom]; rfl
  | cons c r ih =>
    have hc : c ≠ 0 := hs c (by simp)
    have hr : ∀ b ∈ r, b ≠ 0 := fun b hb => hs b (by simp [hb])
    have h := ih hr (i + 1)
    simp only [List.cons_append, strlenFrom, hc, if_false, List.length_cons]
    rw [show i + (r.length + 1) = i + 1 + r.length by omega]
    exact h

theorem strlenFrom_ok (str : List Nat) (i n : Nat) (h : strlenFrom str i = .ok n) :
    ∃ s tail, str = s ++ 0 :: tail ∧ (∀ b ∈ s, b ≠ 0) ∧ n = i + s.length := by
  induction str generalizing i with
  | nil => simp [strlenFrom, throw, throwThe, MonadExceptOf.throw] at h
  | cons c r ih =>
    by_cases hc : c = 0
    · subst hc
      simp [strlenFrom, pure, Except.pure] at h
      exact ⟨[], r, by simp, by simp, by simp [h]⟩
    · simp only [strlenFrom, hc, if_false] at h
      obtain ⟨s, tail, h1, h2, h3⟩ := ih (i + 1) h
      refine ⟨c :: s, tail, by simp [h1], ?_, by simp [h3]; omega⟩
      intro b hb
      rcases List.mem_cons.mp hb with rfl | hb
      · exact hc
      · exact h2 b hb

theorem strlen_holds {str s : List Nat} (h : Holds str s) : strlen str = .ok s.length := by
  obtain ⟨hs, tail, rfl⟩ := h
  simpa [strlen] using strlenFrom_holds s tail hs 0

theorem cstr_holds {str s : List Nat} (h : Holds str s) : cstr str = s := by
  obtain ⟨hs, tail, rfl⟩ := h
  unfold cstr
  rw [List.takeWhile_append]
  have h1 : List.takeWhile (fun c => c != 0) s = s := by
    rw [List.takeWhile_eq_self_iff]
    intro b hb
    simpa using hs b hb
  simp [h1]

theorem holds_of_strlen {str : List Nat} {n : Nat} (h : strlen str = .ok n) :
    Holds str (cstr str) ∧ n = (cstr str).length := by
  obtain ⟨s, tail, h1, h2, h3⟩ := strlenFrom_ok str 0 n h
  have hh : Holds str s := ⟨h2, tail, h1⟩
  rw [cstr_holds hh]
  exact ⟨hh, by simpa using h3⟩

theorem trimStr_concat (q : List Nat) (c : Nat) (hq : q ≠ []) :
    trimStr (q ++ [c]) = if isspace c then trimStr q else q ++ [c] := by
  cases q with
  | nil => exact absurd rfl hq
  | cons h t =>
    simp only [List.cons_append, trimStr, List.rdropWhile_concat]
    split <;> simp_all

theorem trimStr_length_le (s : List Nat) : (trimStr s).length ≤ s.length := by
  cases s with
  | nil => simp [trimStr]
  | cons c r =>
    have := (List.rdropWhile_prefix isspace (l := r)).length_le
    simp only [trimStr, List.length_cons]
    omega

theorem getD_concat_mid (q z : List Nat) (c : Nat) :
    (q ++ c :: z).getD q.length 0 = c := by
  induction q with
  | nil => simp
  | cons h t ih => simpa [List.getD_cons_succ] using ih

theorem getOpt_concat_mid (q z : List Nat) (c : Nat) :
    (q ++ c :: z).get? q.length = some c := by
  induction q with
  | nil => rfl
  | cons h t ih => simpa using ih

theorem set_concat_mid (q z : List Nat) (c d : Nat) :
    (q ++ c :: z).set q.length d = q ++ d :: z := by
  induction q with
  | nil => simp
  | cons h t ih => simp

theorem trimLoop_append (n : Nat) : ∀ (p z : List Nat), p.length = n + 1 →
    trimLoop (p ++ z) n
      = trimStr p ++ List.replicate (p.length - (trimStr p).length) 0 ++ z := by
  induction n with
  | zero =>
    intro p z hp
    match p, hp with
    | [c], _ => simp [trimLoop, trimStr]
  | succ n ih =>
    intro p z hp
    rcases List.eq_nil_or_concat p with rfl | ⟨q, c, rfl⟩
    · simp at hp
    · rw [List.concat_eq_append] at hp ⊢
      have hq : q.length = n + 1 := by simpa using hp
      have hqne : q ≠ [] := by intro h; simp [h] at hq
      have hg : (q ++ [c] ++ z).getD (n + 1) 0 = c := by
        rw [← hq]; simpa using getD_concat_mid q z c
      have hset : (q ++ [c] ++ z).set (n + 1) 0 = q ++ 0 :: z := by
        rw [← hq]; simp [set_concat_mid q z c 0]
      rw [trimLoop, hg, trimStr_concat q c hqne]
      by_cases hc : isspace c = true
      · have hle := trimStr_length_le q
        simp only [hc, if_true, hset]
        rw [ih q (0 :: z) hq]
        have : (q ++ [c]).length - (trimStr q).length
            = (q.length - (trimStr q).length) + 1 := by
          simp only [List.length_append, List.length_singleton]; omega
        rw [this, List.replicate_succ']
        simp
      · simp [hc]

theorem trimStr_isPrefix (s : List Nat) : trimStr s <+: s := by
  cases s with
  | nil => simp [trimStr]
  | cons c r =>
    simpa [trimStr, List.cons_prefix_cons] using List.rdropWhile_prefix isspace (l := r)

theorem trimStr_eq_nil {s : List Nat} : trimStr s = [] ↔ s = [] := by
  cases s <;> simp [trimStr]

theorem trimStr_nonzero {s : List Nat} (hs : ∀ b ∈ s, b ≠ 0) : ∀ b ∈ trimStr s, b ≠ 0 :=
  fun b hb => hs b ((trimStr_isPrefix s).subset hb)

theorem trimwhitespace_eq {str : List Nat} {n : Nat} (h : strlen str = .ok n) :
    trimwhitespace str = .ok (if n = 0 then str else trimLoop str (n - 1)) := by
  unfold trimwhitespace
  rw [h]
  by_cases hn : n = 0 <;> simp [hn, bind, Except.bind, pure, Except.pure]

theorem trimwhitespace_holds {str s : List Nat} (h : Holds str s) :
    ∃ t, trimwhitespace str = .ok t ∧ Holds t (trimStr s) ∧ t.length = str.length := by
  have hlen := strlen_holds h
  obtain ⟨hs, tail, rfl⟩ := h
  cases s with
  | nil =>
    refine ⟨[] ++ 0 :: tail, ?_, ⟨by simp [trimStr], tail, by simp [trimStr]⟩, rfl⟩
    rw [trimwhitespace_eq hlen]
    simp
  | cons c r =>
    have hloop := trimLoop_append r.length (c :: r) (0 :: tail) (by simp)
    have hle := trimStr_length_le (c :: r)
    refine ⟨trimLoop (c :: r ++ 0 :: tail) r.length, ?_, ⟨trimStr_nonzero hs, ?_⟩, ?_⟩
    · rw [trimwhitespace_eq hlen]
      simp
    · refine ⟨List.replicate ((c :: r).length - (trimStr (c :: r)).length) 0 ++ tail, ?_⟩
      rw [hloop, List.append_assoc]
      congr 1
      rw [← List.cons_append, ← List.replicate_succ, List.replicate_succ']
      simp
    · rw [hloop]
      simp only [List.length_append, List.length_replicate, List.length_cons] at hle ⊢
      omega

theorem scanBack_append (t rest : List Nat) (c : Nat) (hc : c < t.length) :
    scanBack (t ++ rest) c = scanBack t c := by
  induction c with
  | zero => simp [scanBack]
  | succ c ih =>
    have h1 : (t ++ rest).getD (c + 1) 0 = t.getD (c + 1) 0 := by
      simp [List.getD_eq_getElem?_getD, List.getElem?_append_left hc]
    rw [scanBack, scanBack, h1, ih (by omega)]

theorem scanBack_fst_le (d : List Nat) (c : Nat) : (scanBack d c).1 ≤ c := by
  induction c with
  | zero => simp [scanBack]
  | succ c ih =>
    rw [scanBack]
    split
    · exact Nat.le_succ_of_le ih
    · exact Nat.le_refl _

theorem scanBack_snd_le (d : List Nat) (c : Nat) : ∀ i ∈ (scanBack d c).2, i ≤ c := by
  induction c with
  | zero => simp [scanBack]
  | succ c ih =>
    intro i hi
    rw [scanBack] at hi
    split at hi
    · rcases List.mem_cons.mp hi with rfl | hi
      · exact Nat.le_refl _
      · exact Nat.le_succ_of_le (ih i hi)
    · simp at hi
      omega

theorem takeWhile_isdigit_append_nul (x tail : List Nat) :
    (x ++ 0 :: tail).takeWhile isdigit = x.takeWhile isdigit := by
  induction x with
  | nil => simp [isdigit]
  | cons a x ih => simp [List.takeWhile_cons, ih]

theorem strtolSigned_append_nul (x tail : List Nat) :
    strtolSigned (x ++ 0 :: tail) = strtolSigned x := by
  match x with
  | [] => simp [strtolSigned, isdigit, digitsValue]
  | a :: r =>
    by_cases h45 : a = 45
    · subst h45
      simp only [List.cons_append, strtolSigned, takeWhile_isdigit_append_nul]
    · by_cases h43 : a = 43
      · subst h43
        simp only [List.cons_append, strtolSigned, takeWhile_isdigit_append_nul]
      · have e1 : ∀ l : List Nat, strtolSigned (a :: l)
            = min (digitsValue ((a :: l).takeWhile isdigit) : Int) (2 ^ 63 - 1 : Int) := by
          intro l
          unfold strtolSigned
          split <;> simp_all
        rw [List.cons_append, e1, e1, ← List.cons_append, takeWhile_isdigit_append_nul]

theorem strtol_append_nul (x tail : List Nat) : strtol (x ++ 0 :: tail) = strtol x := by
  unfold strtol
  induction x with
  | nil => simp [isspace, strtolSigned, isdigit, digitsValue]
  | cons a x ih =>
    by_cases ha : isspace a = true
    · simpa [List.dropWhile_cons, ha] using ih
    · simp only [List.cons_append, List.dropWhile_cons, ha]
      exact strtolSigned_append_nul (a :: x) tail

theorem atoi_append_nul (x tail : List Nat) : atoi (x ++ 0 :: tail) = atoi x := by
  simp [atoi, strtol_append_nul]

theorem fread_length (file : List Nat) :
    (fread (zeroed 4096) 4096 file).1.length = 4096 := by
  simp only [fread, zeroed, List.length_append, List.length_drop, List.length_take,
    List.length_replicate]
  omega

theorem description_some {file s : List Nat} (h : description file = some s) :
    (fread (zeroed 4096) 4096 file).2 ≠ 0 ∧ Holds (fread (zeroed 4096) 4096 file).1 s := by
  unfold description at h
  by_cases hn : (fread (zeroed 4096) 4096 file).2 = 0
  · simp [hn] at h
  · refine ⟨hn, ?_⟩
    simp only [hn, if_false] at h
    cases hl : strlen (fread (zeroed 4096) 4096 file).1 with
    | error e => simp [hl] at h
    | ok n =>
      simp only [hl, Option.some.injEq] at h
      rw [← h]
      exact (holds_of_strlen hl).1

theorem description_of_string (s : List Nat) (hs : ∀ b ∈ s, b ≠ 0) (hne : s ≠ [])
    (hlen : s.length < 4096) : description s = some s := by
  have htake : s.take 4096 = s := List.take_of_length_le (by omega)
  have hbuf : (fread (zeroed 4096) 4096 s).1 = s ++ 0 :: List.replicate (4095 - s.length) 0 := by
    simp only [fread, zeroed, htake, List.drop_replicate]
    rw [show 4096 - s.length = (4095 - s.length) + 1 by omega, List.replicate_succ]
  have hn : (fread (zeroed 4096) 4096 s).2 ≠ 0 := by
    simp only [fread, htake]
    exact fun h => hne (List.length_eq_zero.mp h)
  have hh : Holds (fread (zeroed 4096) 4096 s).1 s := ⟨hs, _, hbuf⟩
  unfold description
  simp only [hn, if_false, strlen_holds hh, cstr_holds hh]

theorem sizeSub_one {n : Nat} (h0 : 0 < n) (h : n ≤ 4096) : sizeSub n 1 = n - 1 := by
  simp only [sizeSub, SIZE_MOD]
  norm_num
  omega

theorem charAt_holds_last {t s : List Nat} (h : Holds t s) (c : Nat)
    (hc : s.getLast? = some c) : charAt t (s.length - 1) = .ok c := by
  obtain ⟨-, tail, rfl⟩ := h
  rcases List.eq_nil_or_concat s with rfl | ⟨q, d, rfl⟩
  · simp at hc
  · rw [List.concat_eq_append] at hc ⊢
    have hc2 : d = c := by simpa using hc
    subst hc2
    have hget : (q ++ [d] ++ 0 :: tail).get? ((q ++ [d]).length - 1) = some d := by
      have e : (q ++ [d]).length - 1 = q.length := by simp
      rw [e, List.append_assoc]
      exact getOpt_concat_mid q (0 :: tail) d
    unfold charAt
    rw [hget]
    rfl

theorem read_pg_pid_desc_eq (pid : Int) {file s : List Nat} (h : description file = some s) :
    read_pg_pid_desc pid (some file) = resolveStr pid s := by
  obtain ⟨hn, hh⟩ := description_some h
  have hlen0 := fread_length file
  obtain ⟨t, ht, hht, htl⟩ := trimwhitespace_holds hh
  have hsl := strlen_holds hht
  have hle : (trimStr s).length ≤ 4096 := by
    obtain ⟨-, tail, e⟩ := hht
    have : t.length = (trimStr s).length + (tail.length + 1) := by simp [e]
    omega
  have hmain : read_pg_pid_desc pid (some file)
      = (match charAt t (sizeSub (trimStr s).length 1) with
          | .error e => .error e
          | .ok last =>
            if !isdigit last then .ok pid
            else .ok (atoi (t.drop (scanBack t (sizeSub (trimStr s).length 1)).1))) := by
    simp only [read_pg_pid_desc, hn, if_false, ht, hsl, bind, Except.bind, pure, Except.pure]
    cases charAt t (sizeSub (trimStr s).length 1) with
    | error e => rfl
    | ok last => by_cases hd : isdigit last = true <;> simp [hd]
  rw [hmain]
  unfold resolveStr
  cases hlast : (trimStr s).getLast? with
  | none =>
    have hnil : trimStr s = [] := by simpa using hlast
    have hidx : sizeSub 0 1 = 2 ^ 64 - 1 := by simp [sizeSub, SIZE_MOD]
    have hget : t.get? (2 ^ 64 - 1) = none := by
      rw [List.get?_eq_none]
      omega
    rw [hnil, List.length_nil, hidx]
    simp only [charAt, hget, throw, throwThe, MonadExceptOf.throw]
  | some c =>
    have hpos : 0 < (trimStr s).length := by
      cases hts : trimStr s with
      | nil => simp [hts] at hlast
      | cons a r => simp
    rw [sizeSub_one hpos hle, charAt_holds_last hht c hlast]
    by_cases hd : isdigit c = true
    · obtain ⟨-, tail, e⟩ := hht
      have hsb : scanBack t ((trimStr s).length - 1)
          = scanBack (trimStr s) ((trimStr s).length - 1) := by
        rw [e]; exact scanBack_append _ _ _ (by omega)
      have hcur := scanBack_fst_le (trimStr s) ((trimStr s).length - 1)
      have hdrop : t.drop (scanBack (trimStr s) ((trimStr s).length - 1)).1
          = (trimStr s).drop (scanBack (trimStr s) ((trimStr s).length - 1)).1 ++ 0 :: tail := by
        rw [e, List.drop_append_of_le_length (by omega)]
      simp [hd, hsb, hdrop, atoi_append_nul]
    · simp [hd]

theorem getLastOpt_snoc (l : List Nat) (d : Nat) : (l ++ [d]).getLast? = some d := by
  simp

theorem trimStr_eq_self {s : List Nat} {c : Nat} (hc : s.getLast? = some c)
    (hsp : isspace c = false) : trimStr s = s := by
  rcases List.eq_nil_or_concat s with rfl | ⟨q, d, rfl⟩
  · rfl
  · rw [List.concat_eq_append] at hc ⊢
    have hdc : d = c := by simpa using hc
    subst hdc
    cases q with
    | nil => rfl
    | cons a r => rw [trimStr_concat _ _ (by simp)]; simp [hsp]

theorem trimStr_idem (s : List Nat) : trimStr (trimStr s) = trimStr s := by
  cases s with
  | nil => rfl
  | cons c r => simp [trimStr, List.rdropWhile_idempotent]

theorem trimStr_last (s : List Nat) (c : Nat) (hc : (trimStr s).getLast? = some c)
    (hsp : isspace c = true) : (trimStr s).length = 1 := by
  cases s with
  | nil => simp [trimStr] at hc
  | cons a r =>
    rcases List.eq_nil_or_concat (r.rdropWhile isspace) with h | ⟨q, d, h⟩
    · simp [trimStr, h]
    · exfalso
      have hne : r.rdropWhile isspace ≠ [] := by rw [h]; simp
      have hlast := List.rdropWhile_last_not isspace r hne
      have hd : (r.rdropWhile isspace).getLast hne = d := by
        simp [h]
      have : d = c := by
        simp only [trimStr, h, List.concat_eq_append] at hc
        rw [← List.cons_append, getLastOpt_snoc] at hc
        exact Option.some.inj hc
      rw [hd, this] at hlast
      exact hlast hsp

theorem isdigit_not_isspace {c : Nat} (h : isdigit c = true) : isspace c = false := by
  simp only [isdigit, isspace, Bool.and_eq_true, decide_eq_true_eq, Bool.or_eq_false_iff,
    Bool.and_eq_false_iff, decide_eq_false_iff_not, beq_eq_false_iff_ne] at h ⊢
  omega

theorem scanBack_run (p : List Nat) (c : Nat) (hc : isdigit c = false) :
    ∀ (n : Nat) (ds rest : List Nat), ds.length = n → (∀ d ∈ ds, isdigit d = true) →
      (scanBack (p ++ c :: (ds ++ rest)) (p.length + ds.length)).1 = p.length := by
  intro n
  induction n with
  | zero =>
    intro ds rest hlen _
    have hnil : ds = [] := List.length_eq_zero.mp hlen
    subst hnil
    cases hp : p.length with
    | zero => simp [scanBack]
    | succ m =>
      have hg := getD_concat_mid p ([] ++ rest) c
      rw [hp] at hg
      simp only [List.length_nil, Nat.add_zero]
      rw [scanBack, hg, hc]
      simp
  | succ n ih =>
    intro ds rest hlen hds
    rcases List.eq_nil_or_concat ds with rfl | ⟨q, d, rfl⟩
    · simp at hlen
    · rw [List.concat_eq_append] at hlen hds ⊢
      have hq : q.length = n := by simpa using hlen
      have hd : isdigit d = true := hds d (by simp)
      have hqd : ∀ x ∈ q, isdigit x = true := fun x hx => hds x (by simp [hx])
      have e1 : p ++ c :: (q ++ [d] ++ rest) = (p ++ c :: q) ++ d :: rest := by simp
      have e2 : p.length + (q ++ [d]).length = (p ++ c :: q).length := by
        simp
      have hg : (p ++ c :: (q ++ [d] ++ rest)).getD (p.length + (q ++ [d]).length) 0 = d := by
        rw [e1, e2]; exact getD_concat_mid _ _ _
      have e3 : p.length + (q ++ [d]).length = (p.length + q.length) + 1 := by
        simp; omega
      have e4 : p ++ c :: (q ++ [d] ++ rest) = p ++ c :: (q ++ d :: rest) := by simp
      rw [e3] at hg ⊢
      rw [scanBack, hg, hd]
      simp only [if_true]
      rw [e4]
      exact ih q (d :: rest) hq hqd

theorem toInt32_small {v : Nat} (h : v < 2 ^ 31) : toInt32 (v : Int) = v := by
  unfold toInt32
  norm_num at h ⊢
  omega

theorem atoi_space_digits (ds : List Nat) (hne : ds ≠ []) (hds : ∀ d ∈ ds, isdigit d = true)
    (hfit : digitsValue ds < 2 ^ 31) : atoi (32 :: ds) = digitsValue ds := by
  cases ds with
  | nil => exact absurd rfl hne
  | cons a r =>
    have ha : isdigit a = true := hds a (by simp)
    have hsp : isspace a = false := isdigit_not_isspace ha
    have htw : (a :: r).takeWhile isdigit = a :: r := by
      rw [List.takeWhile_eq_self_iff]; exact hds
    have h45 : a ≠ 45 := by
      intro h; subst h; simp [isdigit] at ha
    have h43 : a ≠ 43 := by
      intro h; subst h; simp [isdigit] at ha
    have hst : strtolSigned (a :: r)
        = min (digitsValue ((a :: r).takeWhile isdigit) : Int) (2 ^ 63 - 1 : Int) := by
      unfold strtolSigned
      split <;> simp_all
    have hdrop : (32 :: a :: r).dropWhile isspace = a :: r := by
      rw [List.dropWhile_cons, if_pos (by decide : isspace 32 = true), List.dropWhile_cons,
        hsp]
      simp
    have hv : (digitsValue (a :: r) : Int) < 2 ^ 31 := by exact_mod_cast hfit
    unfold atoi strtol
    rw [hdrop, hst, htw, min_eq_left (by norm_num at hv ⊢; omega)]
    exact toInt32_small hfit

theorem bind_liftE_ok {α β : Type} (a : α) (f : α → Run β) :
    ExceptT.bind (liftE (Except.ok a)) f = f a := rfl

theorem runSaveInfo_identity_error (env : Env) (w : World) (e : Fault)
    (h : read_pg_pid_desc env.pid env.cmdline = .error e) :
    runSaveInfo env w = (.error e, w) := by
  simp only [runSaveInfo, saveInfo, h, bind]
  rfl

theorem cstr_append_zeros (l : List Nat) (k : Nat) :
    cstr (l ++ List.replicate k 0) = cstr l := by
  induction l with
  | nil => cases k <;> simp [cstr, List.replicate_succ]
  | cons a r ih =>
    unfold cstr at ih ⊢
    simp only [List.cons_append, List.takeWhile_cons, ih]

theorem textOf_eq_cstr {buf st : List Nat} (h : textOf buf = .ok st) : st = cstr buf := by
  cases hl : strlen buf with
  | error e => simp [textOf, hl, bind, Except.bind] at h
  | ok n =>
    obtain ⟨⟨-, tail, e⟩, hn⟩ := holds_of_strlen hl
    simp only [textOf, hl, bind, Except.bind, pure, Except.pure, Except.ok.injEq] at h
    have ht := List.take_left (cstr buf) (0 :: tail)
    rw [← e] at ht
    rw [← h, hn, ht]

theorem read_file_text {file : Option (List Nat)} {st : List Nat}
    (h : (read_file file 8096 >>= textOf) = .ok st) :
    ∃ content, file = some content ∧ st = fileText content := by
  cases file with
  | none => exact absurd h (by simp [read_file, elog, ERROR, bind, Except.bind, throw,
      throwThe, MonadExceptOf.throw])
  | some content =>
    refine ⟨content, rfl, ?_⟩
    by_cases hn : (fread (zeroed 8096) 8096 content).2 = 0
    · exact absurd h (by simp [read_file, hn, elog, ERROR, bind, Except.bind, throw,
        throwThe, MonadExceptOf.throw])
    · have hr : read_file (some content) 8096 = .ok (fread (zeroed 8096) 8096 content).1 := by
        simp only [read_file, hn, if_false, bind, Except.bind, pure, Except.pure]
      rw [hr] at h
      have hst := textOf_eq_cstr (show textOf (fread (zeroed 8096) 8096 content).1 = .ok st
        from h)
      rw [hst]
      simp only [fread, zeroed, List.drop_replicate, fileText]
      exact cstr_append_zeros _ _

theorem failureFree_iff (env : Env) : failureFree env = true ↔
    ∃ parent st io, read_pg_pid_desc env.pid env.cmdline = .ok parent
      ∧ (read_file env.status 8096 >>= textOf) = .ok st
      ∧ (read_file env.procio 8096 >>= textOf) = .ok io
      ∧ env.openRc = SQLITE_OK ∧ env.execRc = SQLITE_OK
      ∧ env.prepareRc = SQLITE_OK ∧ env.stepRc = SQLITE_DONE := by
  unfold failureFree
  cases h1 : read_pg_pid_desc env.pid env.cmdline <;>
  cases h2 : (read_file env.status 8096 >>= textOf) <;>
  cases h3 : (read_file env.procio 8096 >>= textOf) <;>
  simp [isOk, and_assoc]

theorem runSaveInfo_ok (env : Env) (w : World) (h : failureFree env = true) :
    runSaveInfo env w = (.ok (), { w with rows := w.rows ++ [rowOf env] }) := by
  obtain ⟨parent, st, io, h1, h2, h3, ho, he, hp, hs⟩ := (failureFree_iff env).mp h
  obtain ⟨sf, hsf, hst⟩ := read_file_text h2
  obtain ⟨iof, hiof, hio⟩ := read_file_text h3
  clear h
  cases hb : read_file env.status 8096 with
  | error e => simp [hb, bind, Except.bind] at h2
  | ok buf =>
    cases hb2 : read_file env.procio 8096 with
    | error e => simp [hb2, bind, Except.bind] at h3
    | ok buf2 =>
      simp only [hb, hb2, bind, Except.bind] at h2 h3
      have hrow : rowOf env
          = ⟨some parent, some env.pid, some ⟨env.clock, CLOCKS_PER_SEC⟩, some st, some io⟩ := by
        simp [rowOf, h1, hsf, hiof, hst, hio, Except.toOption]
      rw [hrow]
      simp only [runSaveInfo, saveInfo, h1, hb, hb2, ho, he, hp, hs, bind,
        Except.bind, bind_liftE_ok, h2, h3]
      rfl

theorem runSaveInfoAll_rows (envs : List Env) (hall : ∀ e ∈ envs, failureFree e = true) :
    ∀ w : World, (runSaveInfoAll envs w).rows = w.rows ++ envs.map rowOf := by
  induction envs with
  | nil => intro w; simp [runSaveInfoAll]
  | cons e es ih =>
    intro w
    have he : failureFree e = true := hall e (by simp)
    have hes : ∀ x ∈ es, failureFree x = true := fun x hx => hall x (by simp [hx])
    have hstep : runSaveInfoAll (e :: es) w = runSaveInfoAll es (runSaveInfo e w).2 := rfl
    rw [hstep, ih hes, runSaveInfo_ok e w he]
    simp

theorem resolveStr_ok_of_ne_nil (pid : Int) {s : List Nat} (hs : s ≠ []) :
    ∃ r, resolveStr pid s = .ok r := by
  unfold resolveStr
  cases hl : (trimStr s).getLast? with
  | none =>
    have : trimStr s = [] := by simpa using hl
    exact absurd (trimStr_eq_nil.mp this) hs
  | some c =>
    by_cases hd : isdigit c = true
    · exact ⟨atoi ((trimStr s).drop (scanBack (trimStr s) ((trimStr s).length - 1)).1),
        by simp [hd]⟩
    · exact ⟨pid, by simp [hd]⟩

/-! ## The claims -/

/-- C1, as amended: for every own process id and every description string whose last
character, once `trimwhitespace` has removed the trailing white space (the first
character is never removed), is not a decimal digit, `read_pg_pid_desc` returns the
own process id. -/
theorem read_pg_pid_desc_last_not_digit (pid : Int) (file s : List Nat) (c : Nat)
    (hd : description file = some s) (hc : (trimStr s).getLast? = some c)
    (hnd : isdigit c = false) :
    read_pg_pid_desc pid (some file) = .ok pid := by
  rw [read_pg_pid_desc_eq pid hd]
  unfold resolveStr
  rw [hc]
  simp [hnd]

/-- Witness of C1: the description "postgres: master process" gives the own pid. -/
theorem read_pg_pid_desc_last_not_digit_witness :
    description (bytes "postgres: master process") = some (bytes "postgres: master process")
      ∧ (trimStr (bytes "postgres: master process")).getLast? = some 115
      ∧ isdigit 115 = false
      ∧ read_pg_pid_desc 4242 (some (bytes "postgres: master process")) = .ok 4242 :=
  ⟨by rfl, by rfl, by rfl,
    read_pg_pid_desc_last_not_digit 4242 (bytes "postgres: master process")
      (bytes "postgres: master process") 115 (by rfl) (by rfl) (by rfl)⟩

/-- Counterexample to C1 as stated: the description
"postgres: parallel worker for PID 14810 " ends in a space, which is not a decimal
digit, and `read_pg_pid_desc` in process 14811 returns 14810, not 14811. -/
theorem read_pg_pid_desc_trailing_space_counterexample :
    description (bytes "postgres: parallel worker for PID 14810 ")
        = some (bytes "postgres: parallel worker for PID 14810 ")
      ∧ (bytes "postgres: parallel worker for PID 14810 ").getLast? = some 32
      ∧ isdigit 32 = false
      ∧ read_pg_pid_desc 14811 (some (bytes "postgres: parallel worker for PID 14810 "))
        = .ok 14810
      ∧ read_pg_pid_desc 14811 (some (bytes "postgres: parallel worker for PID 14810 "))
        ≠ .ok 14811 := by
  have h : read_pg_pid_desc 14811 (some (bytes "postgres: parallel worker for PID 14810 "))
      = .ok 14810 := by rfl
  refine ⟨by rfl, by rfl, by rfl, h, ?_⟩
  rw [h]
  intro hc
  injection hc with hc
  exact absurd hc (by decide)

/-- C2: for every description string `pre ++ " " ++ digits`, where `digits` is a
non-empty run of decimal digits whose value fits in a C `int`, `read_pg_pid_desc`
returns the value of `digits`; the result is the same for every other `pre` and every
other own process id. -/
theorem read_pg_pid_desc_trailing_digits (pid : Int) (file pre digits : List Nat)
    (hd : description file = some (pre ++ 32 :: digits)) (hne : digits ≠ [])
    (hdig : ∀ d ∈ digits, isdigit d = true) (hfit : digitsValue digits < 2 ^ 31) :
    read_pg_pid_desc pid (some file) = .ok (digitsValue digits : Int)
      ∧ ∀ (pid2 : Int) (file2 pre2 : List Nat),
          description file2 = some (pre2 ++ 32 :: digits) →
          read_pg_pid_desc pid2 (some file2) = read_pg_pid_desc pid (some file) := by
  have key : ∀ (q : Int) (f p : List Nat), description f = some (p ++ 32 :: digits) →
      read_pg_pid_desc q (some f) = .ok (digitsValue digits : Int) := by
    intro q f p hf
    rw [read_pg_pid_desc_eq q hf]
    obtain ⟨init, l, hl⟩ : ∃ init l, digits = init ++ [l] := by
      rcases List.eq_nil_or_concat digits with h | ⟨init, l, h⟩
      · exact absurd h hne
      · exact ⟨init, l, by simpa using h⟩
    have hld : isdigit l = true := hdig l (by simp [hl])
    have hlast : (p ++ 32 :: digits).getLast? = some l := by
      rw [hl, show p ++ 32 :: (init ++ [l]) = (p ++ 32 :: init) ++ [l] by simp]
      exact getLastOpt_snoc _ _
    have htrim : trimStr (p ++ 32 :: digits) = p ++ 32 :: digits :=
      trimStr_eq_self hlast (isdigit_not_isspace hld)
    have hlen : (p ++ 32 :: digits).length - 1 = p.length + digits.length := by
      simp
    have hscan := scanBack_run p 32 (by rfl) digits.length digits [] rfl hdig
    rw [List.append_nil] at hscan
    unfold resolveStr
    rw [htrim, hlast, hlen, hscan]
    simp [hld, atoi_space_digits digits hne hdig hfit]
  exact ⟨key pid file pre hd, fun pid2 file2 pre2 h2 => by
    rw [key pid2 file2 pre2 h2, key pid file pre hd]⟩

/-- Witness of C2: "postgres: parallel worker for PID 14810" gives 14810. -/
theorem read_pg_pid_desc_trailing_digits_witness :
    description (bytes "postgres: parallel worker for PID 14810")
        = some (bytes "postgres: parallel worker for PID" ++ 32 :: bytes "14810")
      ∧ digitsValue (bytes "14810") = 14810
      ∧ read_pg_pid_desc 14811 (some (bytes "postgres: parallel worker for PID 14810"))
        = .ok 14810 :=
  ⟨by rfl, by rfl,
    (read_pg_pid_desc_trailing_digits 14811 (bytes "postgres: parallel worker for PID 14810")
      (bytes "postgres: parallel worker for PID") (bytes "14810") (by rfl) (by decide)
      (by decide) (by decide)).1⟩

/-- C3: `trimwhitespace` is idempotent: on every array that holds a C string the call
returns, and a second call leaves the array as the first call left it. -/
theorem trimwhitespace_idempotent (str : List Nat) (n : Nat) (h : strlen str = .ok n) :
    ∃ t, trimwhitespace str = .ok t ∧ trimwhitespace t = .ok t := by
  obtain ⟨t, ht, hht, -⟩ := trimwhitespace_holds (holds_of_strlen h).1
  refine ⟨t, ht, ?_⟩
  rw [trimwhitespace_eq (strlen_holds hht)]
  obtain ⟨-, tail, e⟩ := hht
  by_cases h0 : (trimStr (cstr str)).length = 0
  · simp [h0]
  · have hl : (trimStr (cstr str)).length = ((trimStr (cstr str)).length - 1) + 1 := by omega
    have := trimLoop_append _ (trimStr (cstr str)) (0 :: tail) hl
    rw [trimStr_idem] at this
    simp only [h0, if_false]
    rw [e, this]
    simp

/-- Witness of C3: the array holding "ab  ". -/
theorem trimwhitespace_idempotent_witness :
    ∃ t, trimwhitespace [97, 98, 32, 32, 0] = .ok t ∧ trimwhitespace t = .ok t :=
  trimwhitespace_idempotent [97, 98, 32, 32, 0] 4 (by rfl)

/-- C4: when identity resolution fails in `read_pg_pid_desc` (the cmdline file cannot
be opened, or the read returns zero bytes), `saveInfo` is left through the same
`elog(ERROR, ...)` and the world is as before the call: no row has been inserted. -/
theorem saveInfo_aborts_without_identity (env : Env) (w : World)
    (h : env.cmdline = none
      ∨ ∃ file, env.cmdline = some file ∧ (fread (zeroed 4096) 4096 file).2 = 0) :
    ∃ msg, read_pg_pid_desc env.pid env.cmdline = .error (.elogError msg)
      ∧ runSaveInfo env w = (.error (.elogError msg), w)
      ∧ (runSaveInfo env w).2.rows = w.rows := by
  rcases h with h | ⟨file, h, hn⟩
  · have h1 : read_pg_pid_desc env.pid env.cmdline
        = .error (.elogError "could not read proc description for PID %d") := by
      rw [h]; rfl
    exact ⟨_, h1, runSaveInfo_identity_error env w _ h1,
      by rw [runSaveInfo_identity_error env w _ h1]⟩
  · have h1 : read_pg_pid_desc env.pid env.cmdline
        = .error (.elogError "could not fread from proc description for PID %d") := by
      rw [h]
      simp only [read_pg_pid_desc, hn, if_true, bind, Except.bind]
      rfl
    exact ⟨_, h1, runSaveInfo_identity_error env w _ h1,
      by rw [runSaveInfo_identity_error env w _ h1]⟩

/-- Witness of C4: the cmdline file cannot be opened. -/
theorem saveInfo_aborts_without_identity_witness :
    ∃ msg, read_pg_pid_desc envNoCmdline.pid envNoCmdline.cmdline = .error (.elogError msg)
      ∧ runSaveInfo envNoCmdline emptyWorld = (.error (.elogError msg), emptyWorld)
      ∧ (runSaveInfo envNoCmdline emptyWorld).2.rows = emptyWorld.rows :=
  saveInfo_aborts_without_identity envNoCmdline emptyWorld (Or.inl rfl)

/-- C5, the code at the failing inputs: when `sqlite3_exec` answers `SQLITE_BUSY`,
`saveInfo` is left at line 212 with the handle of `sqlite3_open` still open; when
`sqlite3_step` answers `SQLITE_BUSY`, it is left at line 232 with the handle open and
the statement not finalized. No row is written in either case. -/
theorem saveInfo_busy_leaves_handle_open :
    runSaveInfo envSchemaBusy emptyWorld
        = (.error (.elogError "Could not ensure schema was created: %s"),
            { rows := [], handles := 1, stmts := 0 })
      ∧ runSaveInfo envInsertBusy emptyWorld
        = (.error (.elogError "Could not insert data: %s"),
            { rows := [], handles := 1, stmts := 1 }) :=
  ⟨by rfl, by rfl⟩

/-- C6: `saveInfo` is append-only. A call in which no step fails returns, leaves the
existing rows as they are and adds one row whose columns are, in order, the parent id
returned by `read_pg_pid_desc`, the own process id, the CPU seconds, the text of
`/proc/self/status` and the text of `/proc/self/io` (the bytes of the file before its
first NUL byte, among its first 8096 bytes: the whole file when it is shorter and has
no NUL byte); handles and statements are as before. Failure-free calls, one after the
other, add one such row each, so `envs.length` calls on the empty store give exactly
`envs.length` rows. -/
theorem saveInfo_append_only (env : Env) (envs : List Env) (w : World)
    (h : failureFree env = true) (hall : ∀ e ∈ envs, failureFree e = true) :
    (∃ parent statusFile ioFile,
        read_pg_pid_desc env.pid env.cmdline = .ok parent
        ∧ env.status = some statusFile ∧ env.procio = some ioFile
        ∧ runSaveInfo env w = (.ok (), { w with rows := w.rows ++
            [{ master_pid := some parent, my_pid := some env.pid,
               usage := some ⟨env.clock, CLOCKS_PER_SEC⟩,
               procstatus := some (cstr (statusFile.take 8096)),
               procio := some (cstr (ioFile.take 8096)) }] })
        ∧ ((∀ b ∈ statusFile, b ≠ 0) → statusFile.length < 8096 →
            cstr (statusFile.take 8096) = statusFile)
        ∧ ((∀ b ∈ ioFile, b ≠ 0) → ioFile.length < 8096 →
            cstr (ioFile.take 8096) = ioFile))
      ∧ (runSaveInfoAll envs w).rows = w.rows ++ envs.map (fun e =>
          { master_pid := (read_pg_pid_desc e.pid e.cmdline).toOption, my_pid := some e.pid,
            usage := some ⟨e.clock, CLOCKS_PER_SEC⟩,
            procstatus := e.status.map (fun f => cstr (f.take 8096)),
            procio := e.procio.map (fun f => cstr (f.take 8096)) })
      ∧ (runSaveInfoAll envs emptyWorld).rows.length = envs.length := by
  obtain ⟨parent, st, io, h1, h2, h3, -⟩ := (failureFree_iff env).mp h
  obtain ⟨sf, hsf, -⟩ := read_file_text h2
  obtain ⟨iof, hiof, -⟩ := read_file_text h3
  have hfull : ∀ f : List Nat, (∀ b ∈ f, b ≠ 0) → f.length < 8096 →
      cstr (f.take 8096) = f := by
    intro f hf hlen
    rw [List.take_of_length_le (by omega)]
    unfold cstr
    rw [List.takeWhile_eq_self_iff]
    intro b hb
    simpa using hf b hb
  refine ⟨⟨parent, sf, iof, h1, hsf, hiof, ?_, hfull sf, hfull iof⟩,
    runSaveInfoAll_rows envs hall w, ?_⟩
  · rw [runSaveInfo_ok env w h]
    simp [rowOf, fileText, h1, hsf, hiof, Except.toOption]
  · rw [runSaveInfoAll_rows envs hall emptyWorld]
    simp [emptyWorld]

/-- Witness of C6: a parallel worker; one call on the empty store adds the row
(14810, 14811, 1234 / 1000000, "Name:\tpostgres\n", "rchar: 1\n"); three calls in a
row give three rows. -/
theorem saveInfo_append_only_witness :
    failureFree envWorker = true
      ∧ runSaveInfo envWorker emptyWorld = (.ok (),
          { rows := [{ master_pid := some 14810, my_pid := some 14811,
                       usage := some ⟨1234, 1000000⟩,
                       procstatus := some (bytes "Name:\tpostgres\n"),
                       procio := some (bytes "rchar: 1\n") }],
            handles := 0, stmts := 0 })
      ∧ (runSaveInfoAll [envWorker, envWorker, envWorker] emptyWorld).rows.length = 3 := by
  have hw := saveInfo_append_only envWorker [envWorker, envWorker, envWorker] emptyWorld
    (by rfl) (by intro e he; simp at he; subst he; rfl)
  obtain ⟨⟨parent, sf, iof, h1, hsf, hiof, hrun, -, -⟩, -, hlen⟩ := hw
  have hp : parent = 14810 := by
    have h1b : read_pg_pid_desc envWorker.pid envWorker.cmdline = .ok 14810 := by rfl
    rw [h1b] at h1
    injection h1 with h1
    exact h1.symm
  have hs : sf = bytes "Name:\tpostgres\n" := (Option.some.inj hsf).symm
  have hi : iof = bytes "rchar: 1\n" := (Option.some.inj hiof).symm
  subst hp hs hi
  exact ⟨by rfl, hrun.trans (by rfl), hlen⟩

/-- C7, the code at the failing input: for a cmdline file whose first byte is NUL the
description is empty, `strlen(desc)` is 0, and line 99 evaluates `desc[length - 1]` at
the index `2 ^ 64 - 1`, outside the array; there is no check of the length. -/
theorem read_pg_pid_desc_empty_description :
    description [0] = some []
      ∧ read_pg_pid_desc 4242 (some [0]) = .error (.outOfBounds (2 ^ 64 - 1)) :=
  ⟨by rfl, (read_pg_pid_desc_eq 4242 (by rfl : description [0] = some [])).trans (by rfl)⟩

/-- C8, the code at the failing inputs: `atoi` is started at the character before the
digit run, so "pid=42" gives 0 and "worker-42" gives -42, where the trailing digit
run has the value 42. -/
theorem read_pg_pid_desc_char_before_digits :
    read_pg_pid_desc 4242 (some (bytes "pid=42")) = .ok 0
      ∧ read_pg_pid_desc 4242 (some (bytes "worker-42")) = .ok (-42)
      ∧ digitsValue (bytes "42") = 42 :=
  ⟨by rfl, by rfl, by rfl⟩

/-- Counterexample to C9 as stated: the array holding the one-character string " " is
returned as it is, so the result ends in a white-space character, and the trailing
run of white space (the whole string) has not been removed. -/
theorem trimwhitespace_single_space_counterexample :
    trimwhitespace [32, 0] = .ok [32, 0]
      ∧ cstr [32, 0] = [32]
      ∧ isspace 32 = true
      ∧ List.rdropWhile isspace [32] = [] :=
  ⟨by rfl, by rfl, by rfl, by rfl⟩

/-- C9, as amended: `trimwhitespace` removes trailing white space but never the
character at index 0. On every array holding a C string `s` the call returns, and the
array then holds the first character of `s` followed by the rest of `s` without its
maximal trailing run of white space (`trimStr s`; the empty string stays empty); the
result ends in a white-space character only when it is one character long. -/
theorem trimwhitespace_trims_after_first (str : List Nat) (n : Nat)
    (h : strlen str = .ok n) :
    ∃ t, trimwhitespace str = .ok t
      ∧ cstr t = trimStr (cstr str)
      ∧ (cstr t = match cstr str with
          | [] => []
          | c :: r => c :: r.rdropWhile isspace)
      ∧ ∀ c, (cstr t).getLast? = some c → isspace c = true → (cstr t).length = 1 := by
  obtain ⟨t, ht, hht, -⟩ := trimwhitespace_holds (holds_of_strlen h).1
  have hc := cstr_holds hht
  refine ⟨t, ht, hc, ?_, ?_⟩
  · rw [hc]
    cases cstr str <;> rfl
  · intro c hl hsp
    rw [hc] at hl ⊢
    exact trimStr_last _ c hl hsp

/-- Witness of C9: the array holding "a b \n". -/
theorem trimwhitespace_trims_after_first_witness :
    ∃ t, trimwhitespace [97, 32, 98, 32, 10, 0] = .ok t
      ∧ cstr t = trimStr (cstr [97, 32, 98, 32, 10, 0])
      ∧ (cstr t = match cstr [97, 32, 98, 32, 10, 0] with
          | [] => []
          | c :: r => c :: r.rdropWhile isspace)
      ∧ ∀ c, (cstr t).getLast? = some c → isspace c = true → (cstr t).length = 1 :=
  trimwhitespace_trims_after_first [97, 32, 98, 32, 10, 0] 5 (by rfl)

/-- C10: on an array holding a non-empty C string, `trimwhitespace` leaves a non-empty
string that starts the original one (the character at index 0 stays). So when the
description is non-empty, `read_pg_pid_desc` finds `length > 0` at line 98, the index
`length - 1` of line 99 does not wrap, every value of `curr` in the scan of line 103 is
at most `length - 1`, and the function returns. -/
theorem trimwhitespace_keeps_first_char (pid : Int) (str : List Nat) (n : Nat)
    (file s : List Nat) (hstr : strlen str = .ok n) (hn : 0 < n)
    (hd : description file = some s) (hs : s ≠ []) :
    (∃ t, trimwhitespace str = .ok t ∧ cstr t ≠ [] ∧ cstr t <+: cstr str
        ∧ (cstr t).head? = (cstr str).head?)
      ∧ ∃ desc length r, trimwhitespace (fread (zeroed 4096) 4096 file).1 = .ok desc
          ∧ strlen desc = .ok length ∧ 0 < length
          ∧ sizeSub length 1 = length - 1
          ∧ (∀ i ∈ (scanBack desc (sizeSub length 1)).2, i ≤ length - 1)
          ∧ read_pg_pid_desc pid (some file) = .ok r := by
  constructor
  · obtain ⟨hh, hlen⟩ := holds_of_strlen hstr
    obtain ⟨t, ht, hht, -⟩ := trimwhitespace_holds hh
    have hne : cstr str ≠ [] := by
      intro h0; rw [h0] at hlen; simp at hlen; omega
    refine ⟨t, ht, ?_, ?_, ?_⟩
    · rw [cstr_holds hht]
      exact fun h0 => hne (trimStr_eq_nil.mp h0)
    · rw [cstr_holds hht]
      exact trimStr_isPrefix _
    · rw [cstr_holds hht]
      cases cstr str <;> rfl
  · obtain ⟨-, hh⟩ := description_some hd
    obtain ⟨desc, ht, hht, htl⟩ := trimwhitespace_holds hh
    have hpos : 0 < (trimStr s).length := by
      cases hts : trimStr s with
      | nil => exact absurd (trimStr_eq_nil.mp hts) hs
      | cons a r => simp
    have hle : (trimStr s).length ≤ 4096 := by
      obtain ⟨-, tail, e⟩ := hht
      have h1 : desc.length = (trimStr s).length + (tail.length + 1) := by simp [e]
      have h2 := fread_length file
      omega
    obtain ⟨r, hr⟩ := resolveStr_ok_of_ne_nil pid hs
    refine ⟨desc, (trimStr s).length, r, ht, strlen_holds hht, hpos,
      sizeSub_one hpos hle, ?_, ?_⟩
    · rw [sizeSub_one hpos hle]
      exact scanBack_snd_le _ _
    · rw [read_pg_pid_desc_eq pid hd, hr]

/-- Witness of C10: the array holding " x " and the description "PID 42". -/
theorem trimwhitespace_keeps_first_char_witness :
    (∃ t, trimwhitespace [32, 120, 32, 0] = .ok t ∧ cstr t ≠ []
        ∧ cstr t <+: cstr [32, 120, 32, 0]
        ∧ (cstr t).head? = (cstr [32, 120, 32, 0]).head?)
      ∧ ∃ desc length r,
          trimwhitespace (fread (zeroed 4096) 4096 (bytes "PID 42")).1 = .ok desc
          ∧ strlen desc = .ok length ∧ 0 < length
          ∧ sizeSub length 1 = length - 1
          ∧ (∀ i ∈ (scanBack desc (sizeSub length 1)).2, i ≤ length - 1)
          ∧ read_pg_pid_desc 4242 (some (bytes "PID 42")) = .ok r :=
  trimwhitespace_keeps_first_char 4242 [32, 120, 32, 0] 3 (bytes "PID 42") (bytes "PID 42")
    (by rfl) (by decide) (by rfl) (by decide)

end PgSessionStats
